import Mathlib

/-!
Verification development for the atomic-server repository.

The Rust sources `src/lib/src/store.rs`, `src/lib/src/values.rs` and
`src/server/src/search.rs` are shallowly embedded below.  Rust `HashMap`s
become association lists (iteration order is the list order), fallible
operations return the `RResult` type whose `crash` constructor models a
Rust panic (`unwrap` / `expect` / out-of-bounds indexing), as opposed to
`err`, which models a returned `Err` value.

Code of the repository that is not under `src/` (the JSON helpers in
`parse.rs` / `serialize.rs`, the URL constants in `urls.rs`, the mapping
lookup of `mapping.rs`) is modelled from the spec; each such definition is
marked in its doc comment.
-/

namespace AtomicServer

/-- Alias for `String`, for signatures written inside namespaces where
`String` is also a constructor name. -/
abbrev Str : Type := String

/-- Result of an embedded Rust computation: `ok` models `Ok`, `err` models a
returned `Err` value, and `crash` models a panic (`unwrap`, `expect`,
out-of-bounds slice indexing). -/
inductive RResult (α : Type) where
  | ok (a : α)
  | err (e : String)
  | crash (e : String)
deriving DecidableEq

/-- Map over the `ok` value of an `RResult`. -/
def RResult.map {α β : Type} (f : α → β) : RResult α → RResult β
  | .ok a => .ok (f a)
  | .err e => .err e
  | .crash e => .crash e

/-- Association-list lookup; models `HashMap::get` (keys are unique in a
`HashMap`, so only the first occurrence matters). -/
def alget {α : Type} : List (String × α) → String → Option α
  | [], _ => none
  | (k', v) :: rest, k => if k' = k then some v else alget rest k

/-- Association-list insert-or-replace; models `HashMap::insert`'s effect on
the map (the returned old value is read off separately with `alget`). -/
def alinsert {α : Type} : List (String × α) → String → α → List (String × α)
  | [], k, v => [(k, v)]
  | (k', v') :: rest, k, v =>
      if k' = k then (k, v) :: rest else (k', v') :: alinsert rest k v

/-! ### Decimal integers

Models Rust's `i32::to_string` / `str::parse::<iN>()` (optional `+`/`-`
sign, decimal digits, range check). -/

/-- The decimal digit character for `d < 10`. -/
def digitChar : Nat → Char
  | 0 => '0' | 1 => '1' | 2 => '2' | 3 => '3' | 4 => '4'
  | 5 => '5' | 6 => '6' | 7 => '7' | 8 => '8' | _ => '9'

/-- Accumulating decimal value of a digit string. -/
def dvAux (a : Nat) : List Char → Nat
  | [] => a
  | c :: rest => dvAux (a * 10 + (c.toNat - 48)) rest

/-- Fuelled digit-emission loop (fuel keeps the recursion structural, so the
kernel can evaluate it; `natToDigits` always supplies enough fuel). -/
def natToDigitsAux : Nat → Nat → List Char → List Char
  | 0, _, acc => acc
  | fuel + 1, n, acc =>
      if n < 10 then digitChar n :: acc
      else natToDigitsAux fuel (n / 10) (digitChar (n % 10) :: acc)

/-- Decimal digits of a natural number, most significant first. -/
def natToDigits (n : Nat) : List Char := natToDigitsAux (n + 1) n []

/-- `10 ^ (number of decimal digits of n)`, fuelled like `natToDigitsAux`. -/
def magAux : Nat → Nat → Nat
  | 0, _ => 1
  | fuel + 1, n => if n < 10 then 10 else 10 * magAux fuel (n / 10)

/-- Models Rust's integer `to_string`. -/
def intRepr (i : Int) : String :=
  if i < 0 then ⟨'-' :: natToDigits i.natAbs⟩ else ⟨natToDigits i.toNat⟩

/-- Parse a non-empty all-digit character list. -/
def parseNatDigits (l : List Char) : Option Nat :=
  if l ≠ [] ∧ l.all Char.isDigit then some (dvAux 0 l) else none

/-- Range check shared by the signed parsers. -/
def inRange (lo hi v : Int) : Option Int :=
  if lo ≤ v ∧ v ≤ hi then some v else none

/-- Models `str::parse` for a signed integer type with bounds `[lo, hi]`:
optional sign, decimal digits, overflow is an error. -/
def parseSignedRanged (lo hi : Int) (s : String) : Option Int :=
  match s.data with
  | [] => none
  | c :: rest =>
      if c = '-' then (parseNatDigits rest).bind fun n => inRange lo hi (-(n : Int))
      else if c = '+' then (parseNatDigits rest).bind fun n => inRange lo hi (n : Int)
      else (parseNatDigits (c :: rest)).bind fun n => inRange lo hi (n : Int)

/-- Models `str::parse::<i32>()`. -/
def parseI32 (s : String) : Option Int :=
  parseSignedRanged (-2147483648) 2147483647 s

/-- Models `str::parse::<i64>()`. -/
def parseI64 (s : String) : Option Int :=
  parseSignedRanged (-9223372036854775808) 9223372036854775807 s

/-- Models `str::parse::<u32>()`: optional `+`, decimal digits, `< 2^32`. -/
def parseU32 (s : String) : Option Nat :=
  match s.data with
  | [] => none
  | c :: rest =>
      if c = '+' then
        match parseNatDigits rest with
        | some n => if n < 4294967296 then some n else none
        | none => none
      else
        match parseNatDigits (c :: rest) with
        | some n => if n < 4294967296 then some n else none
        | none => none

/-! ### Character-list splitting (models Rust `str::split` / `str::lines`) -/

/-- Split a character list at every occurrence of `sep`, keeping empty
pieces; models Rust's `str::split(char)`. -/
def splitCharAux (sep : Char) : List Char → List Char → List String
  | [], cur => [⟨cur.reverse⟩]
  | c :: rest, cur =>
      if c = sep then ⟨cur.reverse⟩ :: splitCharAux sep rest []
      else splitCharAux sep rest (c :: cur)

/-- `str::split(sep)` on a string. -/
def splitChar (s : String) (sep : Char) : List String :=
  splitCharAux sep s.data []

/-- Strip one trailing carriage return (for `\r\n` line endings). -/
def stripCR (l : List Char) : List Char :=
  if l.getLast? = some '\r' then l.dropLast else l

/-- Post-process the `\n`-split pieces the way Rust's `str::lines` does:
every piece except the last was terminated by `\n` and loses a trailing
`\r`; a final empty piece (trailing newline) is dropped. -/
def rustLinesAux : List String → List String
  | [] => []
  | [last] => if last = "" then [] else [last]
  | p :: rest => (⟨stripCR p.data⟩ : String) :: rustLinesAux rest

/-- Models Rust's `str::lines`. -/
def rustLines (s : String) : List String :=
  rustLinesAux (splitChar s '\n')

/-! ### Regex models

`SLUG_REGEX = ^[a-z0-9]+(?:-[a-z0-9]+)*$` and
`DATE_REGEX = ^\d{4}-(0[1-9]|1[012])-(0[1-9]|[12][0-9]|3[01])$`
from `store.rs` / `values.rs`, as executable boolean matchers. -/

/-- A character allowed inside a slug group. -/
def isSlugChar (c : Char) : Bool := ('a' ≤ c && c ≤ 'z') || c.isDigit

/-- Full match of `SLUG_REGEX`: nonempty `[a-z0-9]` groups joined by single
dashes. -/
def slugMatch (s : String) : Bool :=
  (splitChar s '-').all fun g => g.data ≠ [] && g.data.all isSlugChar

/-- Full match of `DATE_REGEX`. -/
def dateMatch (s : String) : Bool :=
  match s.data with
  | [y1, y2, y3, y4, h1, m1, m2, h2, d1, d2] =>
      y1.isDigit && y2.isDigit && y3.isDigit && y4.isDigit &&
      h1 = '-' && h2 = '-' &&
      ((m1 = '0' && ('1' ≤ m2 && m2 ≤ '9')) ||
        (m1 = '1' && (m2 = '0' || m2 = '1' || m2 = '2'))) &&
      ((d1 = '0' && ('1' ≤ d2 && d2 ≤ '9')) ||
        ((d1 = '1' || d1 = '2') && d2.isDigit) ||
        (d1 = '3' && (d2 = '0' || d2 = '1')))
  | _ => false

/-! ### JSON array-of-strings codec

Modelled from the spec: the repository's `parse.rs::parse_json_array` /
`serialize.rs::{deserialize_json_array, serialize_json_array_owned}` (thin
wrappers over `serde_json` for `Vec<String>`) are not under `src/`.  The
spec (§4.1, §6) requires a syntactically valid array-of-strings literal,
with order preserved, and the serializer is its exact inverse.  The model
supports the two escapes `\"` and `\\` and no insignificant whitespace, so
every string list has a unique literal. -/

/-- Parser state: `expectFirst` right after `[`; `inStr` inside a string
literal; `esc` right after a backslash; `afterStr` after a closing quote. -/
inductive PSt where
  | expectFirst
  | expectStr
  | inStr
  | esc
  | afterStr

/-- One-character-per-step parser loop for a JSON array-of-strings literal.
`cur` is the current string's accumulated characters, `acc` the accumulated
elements; the whole remaining input must be consumed. -/
def runP : PSt → List Char → List Char → List String → Option (List String)
  | _, [], _, _ => none
  | .expectFirst, c :: rest, _cur, acc =>
      if c = '"' then runP .inStr rest [] acc
      else if c = ']' then (if rest = [] then some acc else none)
      else none
  | .expectStr, c :: rest, _cur, acc =>
      if c = '"' then runP .inStr rest [] acc else none
  | .inStr, c :: rest, cur, acc =>
      if c = '"' then runP .afterStr rest [] (acc ++ [⟨cur⟩])
      else if c = '\\' then runP .esc rest cur acc
      else runP .inStr rest (cur ++ [c]) acc
  | .esc, c :: rest, cur, acc =>
      if c = '"' ∨ c = '\\' then runP .inStr rest (cur ++ [c]) acc else none
  | .afterStr, c :: rest, _cur, acc =>
      if c = ',' then runP .expectStr rest [] acc
      else if c = ']' then (if rest = [] then some acc else none)
      else none

/-- Modelled from the spec: parse a JSON array-of-strings literal
(`serde_json::from_str::<Vec<String>>` in the sources). -/
def jparse (l : List Char) : Option (List String) :=
  match l with
  | c :: rest => if c = '[' then runP .expectFirst rest [] [] else none
  | [] => none

/-- Canonical escaped form of one string character. -/
def escapeChar (c : Char) : List Char :=
  if c = '"' ∨ c = '\\' then ['\\', c] else [c]

/-- Characters of a string body followed by its closing quote. -/
def encBody : List Char → List Char
  | [] => ['"']
  | c :: rest => escapeChar c ++ encBody rest

/-- Literal remainder after a closed string element: either the final `]` or
a comma and the remaining elements. -/
def afterRem : List String → List Char
  | [] => [']']
  | y :: ys => ',' :: '"' :: (encBody y.data ++ afterRem ys)

/-- Literal remainder right after the opening `[`. -/
def firstRem : List String → List Char
  | [] => [']']
  | y :: ys => '"' :: (encBody y.data ++ afterRem ys)

/-- Modelled from the spec: serialize a string list as a JSON array literal
(`serialize.rs::serialize_json_array_owned`, i.e. `serde_json::to_string`
of a `Vec<String>`). -/
def serialize_json_array (xs : List String) : String :=
  ⟨'[' :: firstRem xs⟩

/-- Rust `{:?}` formatting of a string, as used in the error messages of
`parse_ad3` (escaping of inner characters is not modelled). -/
def rdbg (s : String) : String := "\"" ++ s ++ "\""

/-! ### URL constants

Modelled from the spec: `urls.rs` is not under `src/`; these are the
well-known Atomic Data URLs the spec refers to (only their identity
matters, plus the one XSD URL that appears literally in `store.rs`). -/

namespace urls

def DATATYPE_PROP : String := "https://atomicdata.dev/properties/datatype"
def SHORTNAME : String := "https://atomicdata.dev/properties/shortname"
def DESCRIPTION : String := "https://atomicdata.dev/properties/description"
def CLASSTYPE_PROP : String := "https://atomicdata.dev/properties/classtype"
def IS_A : String := "https://atomicdata.dev/properties/isA"
def REQUIRES : String := "https://atomicdata.dev/properties/requires"
def RECOMMENDS : String := "https://atomicdata.dev/properties/recommends"
def INTEGER : String := "https://atomicdata.dev/datatypes/integer"
def STRING : String := "https://atomicdata.dev/datatypes/string"
def MDSTRING : String := "https://atomicdata.dev/datatypes/markdown"
def SLUG : String := "https://atomicdata.dev/datatypes/slug"
def ATOMIC_URL : String := "https://atomicdata.dev/datatypes/atomicURL"
def RESOURCE_ARRAY : String := "https://atomicdata.dev/datatypes/resourceArray"
def DATE : String := "https://atomicdata.dev/datatypes/date"
def TIMESTAMP : String := "https://atomicdata.dev/datatypes/timestamp"

end urls

/-! ## Embedding of `src/lib/src/store.rs` -/

namespace Lib

/-- `store.rs::DataType`. -/
inductive DataType where
  | AtomicUrl
  | Date
  | Integer
  | MDString
  | ResourceArray
  | Slug
  | String
  | Timestamp
  | Unsupported (id : String)
deriving DecidableEq

/-- `store.rs::UnsupportedValue`. -/
structure UnsupportedValue where
  value : String
  datatype : String
deriving DecidableEq

/-- `store.rs::Value`.  `Integer` carries an `Int` whose construction sites
keep it in `i32` range; `Timestamp` likewise for `i64`. -/
inductive Value where
  | AtomicUrl (s : String)
  | Date (s : String)
  | Integer (i : Int)
  | MDString (s : String)
  | ResourceArray (v : List String)
  | Slug (s : String)
  | String (s : String)
  | Timestamp (i : Int)
  | Unsupported (u : UnsupportedValue)
deriving DecidableEq

/-- `store.rs::Resource`: property URL → raw value. -/
abbrev Resource : Type := List (String × String)

/-- The `hashmap` field of `store.rs::Store`: subject URL → resource (the
mutation log is irrelevant to every claim and omitted). -/
abbrev Store : Type := List (String × Resource)

/-- `store.rs::Property`. -/
structure Property where
  class_type : Option String
  data_type : DataType
  shortname : String
  subject : String
  description : String
deriving DecidableEq

/-- `store.rs::Class`. -/
structure Class where
  requires : List Property
  recommends : List Property
  shortname : String
  description : String
  subject : String
deriving DecidableEq

/-- `atoms.rs::Atom` as used by `store.rs` (subject, property, raw value,
decoded value). -/
structure Atom where
  subject : String
  property : String
  value : String
  native_value : Value
deriving DecidableEq

/-- `store.rs::PathReturn`. -/
inductive PathReturn where
  | Subject (s : String)
  | Atom (a : Atom)
deriving DecidableEq

/-- `store.rs::match_datatype`. -/
def match_datatype (s : String) : DataType :=
  if s = urls.INTEGER then .Integer
  else if s = urls.STRING then .String
  else if s = urls.MDSTRING then .MDString
  else if s = urls.SLUG then .Slug
  else if s = urls.ATOMIC_URL then .AtomicUrl
  else if s = urls.RESOURCE_ARRAY then .ResourceArray
  else if s = urls.DATE then .Date
  else if s = urls.TIMESTAMP then .Timestamp
  else .Unsupported s

/-- `Store::get`. -/
def get (store : Store) (resource_url : String) : Option Resource :=
  alget store resource_url

/-- `Store::get_native_value` (`&self` is unused in the source).  The
`ResourceArray` branch calls `deserialize_json_array(value).unwrap()`,
hence a `crash` (not an `err`) on a malformed literal. -/
def get_native_value (value : String) (datatype : DataType) : RResult Value :=
  match datatype with
  | .Integer =>
      match parseI32 value with
      | some i => .ok (.Integer i)
      | none => .err ("invalid integer: " ++ value)
  | .String => .ok (.String value)
  | .MDString => .ok (.MDString value)
  | .Slug =>
      if slugMatch value then .ok (.Slug value)
      else .err ("Not a valid slug: " ++ value)
  | .AtomicUrl => .ok (.AtomicUrl value)
  | .ResourceArray =>
      match jparse value.data with
      | some vector => .ok (.ResourceArray vector)
      | none => .crash "called Option.unwrap on a None value"
  | .Date =>
      if dateMatch value then .ok (.Date value)
      else .err ("Not a valid date: " ++ value)
  | .Timestamp =>
      match parseI64 value with
      | some i => .ok (.Timestamp i)
      | none => .err ("invalid timestamp: " ++ value)
  | .Unsupported unsup_url => .ok (.Unsupported ⟨value, unsup_url⟩)

/-- `Store::get_property`. -/
def get_property (store : Store) (url : String) : RResult Property :=
  match alget store url with
  | none => .err ("Property not found: " ++ url)
  | some property_resource =>
      match alget property_resource urls.DATATYPE_PROP with
      | none => .err ("Datatype not found for property " ++ url)
      | some dt =>
          match alget property_resource urls.SHORTNAME with
          | none => .err ("Shortname not found for property " ++ url)
          | some sn =>
              match alget property_resource urls.DESCRIPTION with
              | none => .err ("Description not found for property " ++ url)
              | some desc =>
                  .ok ⟨alget property_resource urls.CLASSTYPE_PROP,
                       match_datatype dt, sn, url, desc⟩

/-- The inner loop of `Store::get_class`'s `get_properties`: every
`get_property` failure is `unwrap`ped, i.e. a panic. -/
def collectProps (store : Store) : List String → RResult (List Property)
  | [] => .ok []
  | u :: rest =>
      match get_property store u with
      | .ok p => (collectProps store rest).map (p :: ·)
      | .err e => .crash e
      | .crash e => .crash e

/-- `get_properties` inside `Store::get_class`: `deserialize_json_array`'s
result is `unwrap`ped. -/
def get_properties (store : Store) (resource_array : String) :
    RResult (List Property) :=
  match jparse resource_array.data with
  | none => .crash "called Result.unwrap on an Err value"
  | some string_vec => collectProps store string_vec

/-- `Store::get_class`: every missing piece is an `expect`/`unwrap`, i.e. a
panic, never a returned error. -/
def get_class (store : Store) (subject : String) : RResult Class :=
  match alget store subject with
  | none => .crash "Class not found"
  | some class_strings =>
      match alget class_strings urls.SHORTNAME with
      | none => .crash "Class has no shortname"
      | some shortname =>
          match alget class_strings urls.DESCRIPTION with
          | none => .crash "Class has no description"
          | some description =>
              let req :=
                match alget class_strings urls.REQUIRES with
                | none => RResult.ok []
                | some rs => get_properties store rs
              let rec' :=
                match alget class_strings urls.RECOMMENDS with
                | none => RResult.ok []
                | some rs => get_properties store rs
              match req with
              | .ok requires =>
                  match rec' with
                  | .ok recommends =>
                      .ok ⟨requires, recommends, shortname, description, subject⟩
                  | .err e => .crash e
                  | .crash e => .crash e
              | .err e => .crash e
              | .crash e => .crash e

/-- The class-collection loop of `Store::get_classes_for_subject`. -/
def collectClasses (store : Store) : List String → RResult (List Class)
  | [] => .ok []
  | c :: rest =>
      match get_class store c with
      | .ok cl => (collectClasses store rest).map (cl :: ·)
      | .err e => .err e
      | .crash e => .crash e

/-- `Store::get_classes_for_subject`. -/
def get_classes_for_subject (store : Store) (subject : String) :
    RResult (List Class) :=
  match alget store subject with
  | none => .err ("Subject not found: " ++ subject)
  | some res =>
      match alget res urls.IS_A with
      | none => .ok []
      | some classes_array =>
          match get_native_value classes_array .ResourceArray with
          | .ok (.ResourceArray vector) => collectClasses store vector
          | .ok _ => .err "Should be an array"
          | .err e => .err e
          | .crash e => .crash e

/-- Create-or-update of one (subject, property, value) triple in the
hashmap, shared by `add_atoms` and `parse_ad3`. -/
def storeInsertAtom (store : Store) (subject property value : String) : Store :=
  match alget store subject with
  | some existing => alinsert store subject (alinsert existing property value)
  | none => alinsert store subject [(property, value)]

/-- `Store::add_atoms`.  On an existing subject the code runs
`resource.insert(..).ok_or("Failed to add atom")?`: `HashMap::insert`
returns the *previous* value, so a freshly inserted property yields `None`
and the loop aborts with `Err` — after the insertion has already taken
effect.  The returned pair is (final hashmap, result). -/
def add_atoms (store : Store) : List Atom → Store × RResult Unit
  | [] => (store, .ok ())
  | atom :: rest =>
      match alget store atom.subject with
      | some resource =>
          let store' := alinsert store atom.subject
            (alinsert resource atom.property atom.value)
          match alget resource atom.property with
          | some _ => add_atoms store' rest
          | none => (store', .err "Failed to add atom")
      | none =>
          add_atoms (alinsert store atom.subject [(atom.property, atom.value)]) rest

/-- `Store::add_resource`: `hashmap.insert(..).ok_or("Could not add
resource")?` — `Ok` only when the subject already had a resource; the
insertion itself always takes effect. -/
def add_resource (store : Store) (subject : String) (resource : Resource) :
    Store × RResult Unit :=
  let store' := alinsert store subject resource
  match alget store subject with
  | some _ => (store', .ok ())
  | none => (store', .err "Could not add resource")

/-- The per-line loop of `Store::parse_ad3`.  A `#`- or space-prefixed or
empty line is skipped; a `[` line is parsed with
`from_str(line).expect(..)` (panic on malformed JSON), then its length is
checked; any other leading character is a returned error. -/
def parse_ad3_go (store : Store) : List String → Store × RResult Unit
  | [] => (store, .ok ())
  | line :: rest =>
      match line.data with
      | [] => parse_ad3_go store rest
      | c :: _ =>
          if c = '#' then parse_ad3_go store rest
          else if c = ' ' then parse_ad3_go store rest
          else if c = '[' then
            match jparse line.data with
            | none => (store, .crash ("Parsing error in " ++ rdbg line))
            | some string_vec =>
                match string_vec with
                | [subject, property, value] =>
                    parse_ad3_go (storeInsertAtom store subject property value) rest
                | _ =>
                    (store, .err ("Wrong length of array at line " ++ rdbg line ++
                      ": wrong length of array, should be 3"))
          else
            (store, .err ("Parsing error at " ++ rdbg line ++
              ", cannot start with " ++ ⟨[c]⟩))

/-- `Store::parse_ad3` (returns the final hashmap next to the result, since
the Rust method mutates `self` in place). -/
def parse_ad3 (store : Store) (string : String) : Store × RResult Unit :=
  parse_ad3_go store (rustLines string)

/-- `Store::property_shortname_to_url`: scan the resource's property URLs
for one whose stored shortname matches. -/
def property_shortname_to_url (store : Store) (shortname : String) :
    Resource → RResult String
  | [] => .err ("Could not find shortname " ++ shortname)
  | (prop_url, _) :: rest =>
      match alget store prop_url with
      | none => .err ("Property '" ++ prop_url ++ "' not found")
      | some prop_resource =>
          match alget prop_resource urls.SHORTNAME with
          | none => .err ("Property shortname for '" ++ prop_url ++ "' not found")
          | some prop_shortname =>
              if prop_shortname = shortname then .ok prop_url
              else property_shortname_to_url store shortname rest

/-- The walking state of `Store::get_path`: current subject, its backing
resource, and the `current` PathReturn. -/
structure PathState where
  subject : String
  resource : Option Resource
  current : PathReturn

/-- One iteration of `Store::get_path`'s token loop (for a non-empty token).
The numeric branch indexes `vector[i]` *after* merely logging the
out-of-bounds warning, hence the `crash` when `i` is out of range.  In the
property branch the raw value is fetched with `expect`/`unwrap` (panics)
before `get_property` is consulted, mirroring the source order.  `isUrl`
models `mapping::is_url` (mapping.rs is not under `src/`). -/
def pathStep (store : Store) (isUrl : String → Bool) (st : PathState)
    (item : String) : RResult PathState :=
  match parseU32 item with
  | some i =>
      match st.current with
      | .Atom atom =>
          match st.resource with
          | none => .err "Resource not found"
          | some res =>
              match alget res atom.property with
              | none => .err "Property not found"
              | some array_string =>
                  match jparse array_string.data with
                  | none => .crash "Failed to parse array"
                  | some vector =>
                      if h : i < vector.length then
                        let url := vector.get ⟨i, h⟩
                        .ok ⟨url, alget store url, .Subject url⟩
                      else .crash "index out of bounds"
      | .Subject _ => .err "You can't do an index on a resource, only on arrays."
  | none =>
      let propRes : RResult String :=
        if isUrl item then .ok item
        else
          match st.resource with
          | none => .err "Relation not found"
          | some res => property_shortname_to_url store item res
      match propRes with
      | .err e => .err e
      | .crash e => .crash e
      | .ok property_url =>
          match st.resource with
          | none => .crash "Resource not found"
          | some res =>
              match alget res property_url with
              | none => .crash "called Option.unwrap on a None value"
              | some value =>
                  match get_property store property_url with
                  | .err e => .err e
                  | .crash e => .crash e
                  | .ok property =>
                      match get_native_value value property.data_type with
                      | .err e => .err e
                      | .crash e => .crash e
                      | .ok nv =>
                          .ok ⟨st.subject, st.resource,
                            .Atom ⟨st.subject, property_url, value, nv⟩⟩

/-- The token loop of `Store::get_path`; empty tokens (double spaces) are
skipped. -/
def getPathGo (store : Store) (isUrl : String → Bool) :
    PathState → List String → RResult PathReturn
  | st, [] => .ok st.current
  | st, item :: rest =>
      if item = "" then getPathGo store isUrl st rest
      else
        match pathStep store isUrl st item with
        | .ok st' => getPathGo store isUrl st' rest
        | .err e => .err e
        | .crash e => .crash e

/-- `Store::get_path`.  `tryMap` models `mapping::try_mapping_or_url`
(modelled from the spec: resolve a bookmark, falling back to the literal
identifier when URL-shaped); `isUrl` models `mapping::is_url`. -/
def get_path (store : Store) (tryMap : String → Option String)
    (isUrl : String → Bool) (atomic_path : String) : RResult PathReturn :=
  let path_items := splitChar atomic_path ' '
  let first := path_items.headD ""
  match tryMap first with
  | none => .err ("No url found for " ++ first)
  | some id_url =>
      if path_items.length = 1 then .ok (.Subject id_url)
      else getPathGo store isUrl ⟨id_url, alget store id_url, .Subject id_url⟩
        (path_items.drop 1)

/-- The validation error message of `Store::validate_store` (the `requried`
typo is the source's). -/
def missingMsg (shortname subject classSubject : String) : String :=
  "Missing requried property " ++ shortname ++ " in " ++ subject ++
    " because of class " ++ classSubject

/-- The value-decoding loop of `Store::validate_store`: resolve every
property, decode every value, collect the property URLs as `found_props`. -/
def decodeProps (store : Store) : List (String × String) → RResult (List String)
  | [] => .ok []
  | (prop_url, value) :: rest =>
      match get_property store prop_url with
      | .ok property =>
          match get_native_value value property.data_type with
          | .ok _ => (decodeProps store rest).map (prop_url :: ·)
          | .err e => .err e
          | .crash e => .crash e
      | .err e => .err e
      | .crash e => .crash e

/-- The required-property loop of `Store::validate_store` for one class. -/
def checkRequires (subject : String) (found : List String)
    (classSubject : String) : List Property → RResult Unit
  | [] => .ok ()
  | p :: rest =>
      if p.subject ∈ found then checkRequires subject found classSubject rest
      else .err (missingMsg p.shortname subject classSubject)

/-- The class loop of `Store::validate_store`. -/
def checkClasses (subject : String) (found : List String) :
    List Class → RResult Unit
  | [] => .ok ()
  | c :: rest =>
      match checkRequires subject found c.subject c.requires with
      | .ok _ => checkClasses subject found rest
      | .err e => .err e
      | .crash e => .crash e

/-- The per-resource body of `Store::validate_store`. -/
def checkResource (store : Store) (subject : String) (res : Resource) :
    RResult Unit :=
  match decodeProps store res with
  | .ok found =>
      match get_classes_for_subject store subject with
      | .ok classes => checkClasses subject found classes
      | .err e => .err e
      | .crash e => .crash e
  | .err e => .err e
  | .crash e => .crash e

/-- The resource loop of `Store::validate_store`. -/
def validateGo (store : Store) : List (String × Resource) → RResult Unit
  | [] => .ok ()
  | (subject, res) :: rest =>
      match checkResource store subject res with
      | .ok _ => validateGo store rest
      | .err e => .err e
      | .crash e => .crash e

/-- `Store::validate_store`. -/
def validate_store (store : Store) : RResult Unit :=
  validateGo store store

end Lib

/-- JSON documents, at the level `resource_to_json` builds them
(`serde_json::Value`; objects are key → value maps). -/
inductive Json where
  | str (s : String)
  | num (n : Int)
  | arr (l : List Json)
  | obj (m : List (String × Json))

namespace Lib

/-- The `@context` entry built for one property in
`Store::resource_to_json`. -/
def ctxValue (prop_url : String) (dt : DataType) : Json :=
  match dt with
  | .AtomicUrl => .obj [("@id", .str prop_url), ("@type", .str "@id")]
  | .Date => .obj [("@id", .str prop_url),
      ("@type", .str "http://www.w3.org/2001/XMLSchema#date")]
  | .Integer => .obj [("@id", .str prop_url),
      ("@type", .str "http://www.w3.org/2001/XMLSchema#integer")]
  | .ResourceArray => .obj [("@id", .str prop_url), ("@container", .str "@list")]
  | _ => .str prop_url

/-- The JSON value built for one decoded value in
`Store::resource_to_json`. -/
def valueToJson : Value → Json
  | .AtomicUrl val => .str val
  | .Date val => .str val
  | .Integer val => .num val
  | .MDString val => .str val
  | .ResourceArray val => .arr (val.map .str)
  | .Slug val => .str val
  | .String val => .str val
  | .Timestamp val => .num val
  | .Unsupported val => .str val.value

/-- The per-property loop of `Store::resource_to_json`, threading the root
object and the `@context` object. -/
def rtjGo (store : Store) : List (String × String) →
    List (String × Json) → List (String × Json) →
    RResult (List (String × Json) × List (String × Json))
  | [], root, context => .ok (root, context)
  | (prop_url, value) :: rest, root, context =>
      match get_property store prop_url with
      | .ok property =>
          match get_native_value value property.data_type with
          | .ok nv =>
              rtjGo store rest (alinsert root property.shortname (valueToJson nv))
                (alinsert context property.shortname (ctxValue prop_url property.data_type))
          | .err e => .err e
          | .crash e => .crash e
      | .err e => .err e
      | .crash e => .crash e

/-- `Store::resource_to_json` with `json_ld = true` (the hard-wired value in
the source), modelled up to the final `serde_json::to_string_pretty`: the
result is the JSON object itself rather than its pretty-printed text. -/
def resource_to_json (store : Store) (resource_url : String) : RResult Json :=
  match get store resource_url with
  | none => .err "Resource not found"
  | some resource =>
      match rtjGo store resource [] [] with
      | .ok (root, context) =>
          .ok (.obj (alinsert (alinsert root "@context" (.obj context))
            "@id" (.str resource_url)))
      | .err e => .err e
      | .crash e => .crash e

end Lib

/-! ## Embedding of `src/lib/src/values.rs` -/

namespace Values

/-- `values.rs::DataType`. -/
inductive DataType where
  | AtomicUrl
  | Date
  | Integer
  | Markdown
  | ResourceArray
  | Slug
  | String
  | Timestamp
  | Unsupported (id : String)
deriving DecidableEq

/-- `values.rs::UnsupportedValue`. -/
structure UnsupportedValue where
  value : String
  datatype : String
deriving DecidableEq

/-- `values.rs::Value`. -/
inductive Value where
  | AtomicUrl (s : String)
  | Date (s : String)
  | Integer (i : Int)
  | Markdown (s : String)
  | ResourceArray (v : List String)
  | Slug (s : String)
  | String (s : String)
  | Timestamp (i : Int)
  | Unsupported (u : UnsupportedValue)
deriving DecidableEq

/-- `values.rs::Value::new` — decode a raw string under a datatype. -/
def Value.new (value : Str) (datatype : DataType) : RResult Value :=
  match datatype with
  | .Integer =>
      match parseI32 value with
      | some i => .ok (.Integer i)
      | none => .err ("invalid integer: " ++ value)
  | .String => .ok (.String value)
  | .Markdown => .ok (.Markdown value)
  | .Slug =>
      if slugMatch value then .ok (.Slug value)
      else .err ("Not a valid slug: " ++ value)
  | .AtomicUrl => .ok (.AtomicUrl value)
  | .ResourceArray =>
      match jparse value.data with
      | some vector => .ok (.ResourceArray vector)
      | none => .err ("Could not deserialize ResourceArray: " ++ value ++ ".")
  | .Date =>
      if dateMatch value then .ok (.Date value)
      else .err ("Not a valid date: " ++ value)
  | .Timestamp =>
      match parseI64 value with
      | some i => .ok (.Timestamp i)
      | none => .err ("Not a valid Timestamp: " ++ value ++ ".")
  | .Unsupported unsup_url => .ok (.Unsupported ⟨value, unsup_url⟩)

/-- `values.rs::Value::to_string` — encode a value back to its raw string. -/
def Value.to_string : Value → Str
  | .AtomicUrl s => s
  | .Date s => s
  | .Integer i => intRepr i
  | .Markdown s => s
  | .ResourceArray v => serialize_json_array v
  | .Slug s => s
  | .String s => s
  | .Timestamp i => intRepr i
  | .Unsupported u => u.value

/-- Modelled from the spec: the datatype each `Value` variant belongs to
("v's own datatype" in §8; not a named function in the source). -/
def datatype_of : Value → DataType
  | .AtomicUrl _ => .AtomicUrl
  | .Date _ => .Date
  | .Integer _ => .Integer
  | .Markdown _ => .Markdown
  | .ResourceArray _ => .ResourceArray
  | .Slug _ => .Slug
  | .String _ => .String
  | .Timestamp _ => .Timestamp
  | .Unsupported u => .Unsupported u.datatype

/-- The payload restrictions under which a `Value` is well formed: exactly
the conditions `Value::new` checks (i32/i64 range for the numeric variants,
the slug/date regexes).  All other variants are unrestricted. -/
def ValidValue : Value → Prop
  | .Integer i => -2147483648 ≤ i ∧ i ≤ 2147483647
  | .Timestamp i => -9223372036854775808 ≤ i ∧ i ≤ 9223372036854775807
  | .Slug s => slugMatch s = true
  | .Date s => dateMatch s = true
  | _ => True

end Values

/-! ## Embedding of `src/server/src/search.rs` -/

namespace Search

/-- A resource as the search indexer consumes it (`atomic_lib::Resource`):
a subject and its `get_propvals` pairs.  Modelled from the spec:
`atomic_lib`'s `Resource` type is not under `src/`, only `values.rs` is. -/
structure Resource where
  subject : String
  propvals : List (String × Values.Value)

/-- A document in the search index (one per indexed triple). -/
structure Doc where
  subject : String
  property : String
  value : String
deriving DecidableEq

/-- `search.rs::add_triple` — the document a single triple becomes. -/
def add_triple (subject property value : String) : Doc :=
  ⟨subject, property, value⟩

/-- The (property, value) loop of `search.rs::add_resource`: `AtomicUrl` and
`ResourceArray` values are `continue`d over, everything else is indexed. -/
def addResourceGo (subject : String) : List (String × Values.Value) → List Doc
  | [] => []
  | (prop, val) :: rest =>
      match val with
      | .AtomicUrl _ => addResourceGo subject rest
      | .ResourceArray _ => addResourceGo subject rest
      | v => add_triple subject prop v.to_string :: addResourceGo subject rest

/-- `search.rs::add_resource` — the documents one resource contributes. -/
def add_resource (r : Resource) : List Doc :=
  addResourceGo r.subject r.propvals

/-- The filter `add_resource` applies per value. -/
def isSkipped : Values.Value → Bool
  | .AtomicUrl _ => true
  | .ResourceArray _ => true
  | _ => false

/-- Does the subject contain the substring `"/commits/"`?  (Rust's
`str::contains`.) -/
def startsWithL : List Char → List Char → Bool
  | [], _ => true
  | _ :: _, [] => false
  | a :: as_, b :: bs => a = b && startsWithL as_ bs

/-- Substring test over character lists. -/
def hasSubstr : List Char → List Char → Bool
  | [], pat => startsWithL pat []
  | c :: rest, pat => startsWithL pat (c :: rest) || hasSubstr rest pat

/-- The commit filter of `search.rs::add_all_resources`. -/
def containsCommits (s : String) : Bool :=
  hasSubstr s.data "/commits/".data

/-- `search.rs::add_all_resources` — index every store resource, skipping
those whose subject contains `"/commits/"`. -/
def add_all_resources : List Resource → List Doc
  | [] => []
  | r :: rest =>
      if containsCommits r.subject then add_all_resources rest
      else add_resource r ++ add_all_resources rest

end Search

/-! ## Statement-level predicates and concrete fixtures -/

namespace Lib

/-- All of a resource's values resolve their property and decode under its
datatype (the hypothesis "all declared values decode" of the validator
claims), as an executable check. -/
def decodesOk (store : Store) (res : Resource) : Bool :=
  res.all fun pv =>
    match get_property store pv.1 with
    | .ok property =>
        match get_native_value pv.2 property.data_type with
        | .ok _ => true
        | _ => false
    | _ => false

/-- The subject's `isA` classes all resolve (well-formed referenced schema
resources), as an executable check. -/
def classesOk (store : Store) (subject : String) : Bool :=
  match get_classes_for_subject store subject with
  | .ok _ => true
  | _ => false

/-- Some asserted class of `subject` has a required property missing from
the resource's property keys, as an executable check. -/
def hasViolationB (store : Store) (subject : String) (res : Resource) : Bool :=
  match get_classes_for_subject store subject with
  | .ok cs =>
      cs.any fun c =>
        c.requires.any fun p => !(decide (p.subject ∈ res.map Prod.fst))
  | _ => false

end Lib

/-- A minimal property-describing resource: datatype, shortname,
description. -/
def propRes (dt sn : String) : Lib.Resource :=
  [(urls.DATATYPE_PROP, dt), (urls.SHORTNAME, sn), (urls.DESCRIPTION, "d")]

/-- Fixture for the path-resolution claims: subject `A` holds property `P`
whose raw value is the resource array `["B"]`. -/
def pathStore : Lib.Store :=
  [("A", [("P", "[\"B\"]")]), ("P", propRes urls.RESOURCE_ARRAY "p")]

/-- Fixture for the validator claim: subject `X` asserts class `C`, which
requires property `P`, and `X` lacks `P`.  All schema vocabulary used
anywhere in the store is itself described, so every value decodes. -/
def c7Store : Lib.Store :=
  [("X", [(urls.IS_A, "[\"C\"]")]),
   ("C", [(urls.SHORTNAME, "c"), (urls.DESCRIPTION, "d"), (urls.REQUIRES, "[\"P\"]")]),
   ("P", propRes urls.STRING "name"),
   (urls.DATATYPE_PROP, propRes urls.ATOMIC_URL "datatype"),
   (urls.SHORTNAME, propRes urls.SLUG "shortname"),
   (urls.DESCRIPTION, propRes urls.STRING "description"),
   (urls.IS_A, propRes urls.RESOURCE_ARRAY "is-a"),
   (urls.REQUIRES, propRes urls.RESOURCE_ARRAY "requires")]

/-- Fixture for the JSON-LD claim: subject `s` has one Integer-typed
property `P` (shortname `count`) with raw value `42`. -/
def c8Store : Lib.Store :=
  [("s", [("P", "42")]), ("P", propRes urls.INTEGER "count")]

/-- What a successful `runP` run from each state says about its input: the
consumed characters are exactly the canonical literal of the produced
elements.  Used to prove `runP` sound. -/
def runPSpec : PSt → List Char → List Char → List String → List String → Prop
  | .expectFirst, l, _cur, acc, xs => ∃ ys, xs = acc ++ ys ∧ l = firstRem ys
  | .expectStr, l, _cur, acc, xs =>
      ∃ y ys, xs = acc ++ y :: ys ∧ l = '"' :: (encBody y.data ++ afterRem ys)
  | .inStr, l, cur, acc, xs =>
      ∃ p ys, xs = acc ++ (⟨cur ++ p⟩ : String) :: ys ∧ l = encBody p ++ afterRem ys
  | .esc, l, cur, acc, xs =>
      ∃ c p ys, (c = '"' ∨ c = '\\') ∧
        xs = acc ++ (⟨cur ++ c :: p⟩ : String) :: ys ∧
        l = c :: (encBody p ++ afterRem ys)
  | .afterStr, l, _cur, acc, xs => ∃ ys, xs = acc ++ ys ∧ l = afterRem ys

/-! ## Association-list lemmas -/

theorem alget_alinsert_self {α : Type} (l : List (String × α)) (k : String) (v : α) :
    alget (alinsert l k v) k = some v := by
  induction l with
  | nil => simp [alinsert, alget]
  | cons hd tl ih =>
      obtain ⟨k', v'⟩ := hd
      by_cases h : k' = k <;> simp [alinsert, alget, h, ih]

theorem alget_alinsert_ne {α : Type} (l : List (String × α)) (k k' : String) (v : α)
    (h : k ≠ k') : alget (alinsert l k v) k' = alget l k' := by
  induction l with
  | nil => simp [alinsert, alget, h]
  | cons hd tl ih =>
      obtain ⟨k1, v1⟩ := hd
      by_cases h1 : k1 = k
      · subst h1
        simp [alinsert, alget, h]
      · by_cases h2 : k1 = k' <;>
          simp [alinsert, alget, h1, h2, ih, Ne.symm h]

/-! ## Correctness of the JSON array-of-strings codec -/

theorem strExt {a b : String} (h : a.data = b.data) : a = b := by
  cases a
  cases b
  simp_all

theorem runP_inStr_encBody (s : List Char) : ∀ tail cur acc,
    runP .inStr (encBody s ++ tail) cur acc =
      runP .afterStr tail [] (acc ++ [(⟨cur ++ s⟩ : String)]) := by
  induction s with
  | nil => intro tail cur acc; simp [encBody, runP]
  | cons c s ih =>
      intro tail cur acc
      by_cases h : c = '"' ∨ c = '\\'
      · have e1 : encBody (c :: s) ++ tail = '\\' :: (c :: (encBody s ++ tail)) := by
          simp [encBody, escapeChar, h]
        rw [e1, runP, if_neg (by decide : ¬('\\' : Char) = '"'), if_pos rfl,
          runP, if_pos h, ih]
        simp
      · push_neg at h
        have e1 : encBody (c :: s) ++ tail = c :: (encBody s ++ tail) := by
          simp [encBody, escapeChar, h.1, h.2]
        rw [e1, runP, if_neg h.1, if_neg h.2, ih]
        simp

theorem runP_afterStr_afterRem : ∀ ys acc,
    runP .afterStr (afterRem ys) [] acc = some (acc ++ ys) := by
  intro ys
  induction ys with
  | nil => intro acc; simp [afterRem, runP]
  | cons y ys ih =>
      intro acc
      have h1 : ¬(',' : Char) = ']' := by decide
      simp only [afterRem, runP, if_pos rfl]
      rw [runP_inStr_encBody]
      simp [ih]

theorem jparse_serialize (xs : List String) :
    jparse (serialize_json_array xs).data = some xs := by
  show jparse ('[' :: firstRem xs) = some xs
  cases xs with
  | nil => rfl
  | cons y ys =>
      show runP .expectFirst ('"' :: (encBody y.data ++ afterRem ys)) [] [] = some (y :: ys)
      rw [runP, if_pos rfl, runP_inStr_encBody, runP_afterStr_afterRem]
      simp

theorem runP_sound : ∀ (l : List Char) (st : PSt) (cur : List Char)
    (acc xs : List String), runP st l cur acc = some xs → runPSpec st l cur acc xs := by
  intro l
  induction l with
  | nil => intro st cur acc xs h; cases st <;> simp [runP] at h
  | cons ch rest ih =>
      intro st cur acc xs h
      cases st with
      | expectFirst =>
          by_cases h1 : ch = '"'
          · subst h1
            rw [runP, if_pos rfl] at h
            obtain ⟨p, ys, hxs, hrest⟩ := ih .inStr [] acc xs h
            exact ⟨(⟨p⟩ : String) :: ys, by simpa using hxs, by simp [firstRem, hrest]⟩
          · by_cases h2 : ch = ']'
            · subst h2
              rw [runP, if_neg h1, if_pos rfl] at h
              by_cases h3 : rest = []
              · rw [if_pos h3] at h
                subst h3
                exact ⟨[], by simpa using h.symm, by simp [firstRem]⟩
              · rw [if_neg h3] at h
                exact absurd h (by simp)
            · rw [runP, if_neg h1, if_neg h2] at h
              exact absurd h (by simp)
      | expectStr =>
          by_cases h1 : ch = '"'
          · subst h1
            rw [runP, if_pos rfl] at h
            obtain ⟨p, ys, hxs, hrest⟩ := ih .inStr [] acc xs h
            exact ⟨(⟨p⟩ : String), ys, by simpa using hxs, by simp [hrest]⟩
          · rw [runP, if_neg h1] at h
            exact absurd h (by simp)
      | inStr =>
          by_cases h1 : ch = '"'
          · subst h1
            rw [runP, if_pos rfl] at h
            obtain ⟨ys, hxs, hrest⟩ := ih .afterStr [] (acc ++ [(⟨cur⟩ : String)]) xs h
            refine ⟨[], ys, ?_, by simp [encBody, hrest]⟩
            simpa using hxs
          · by_cases h2 : ch = '\\'
            · subst h2
              rw [runP, if_neg h1, if_pos rfl] at h
              obtain ⟨c, p, ys, hc, hxs, hrest⟩ := ih .esc cur acc xs h
              refine ⟨c :: p, ys, hxs, ?_⟩
              simp [encBody, escapeChar, hc, hrest]
            · rw [runP, if_neg h1, if_neg h2] at h
              obtain ⟨p, ys, hxs, hrest⟩ := ih .inStr (cur ++ [ch]) acc xs h
              refine ⟨ch :: p, ys, by simpa using hxs, ?_⟩
              simp [encBody, escapeChar, h1, h2, hrest]
      | esc =>
          by_cases h1 : ch = '"' ∨ ch = '\\'
          · rw [runP, if_pos h1] at h
            obtain ⟨p, ys, hxs, hrest⟩ := ih .inStr (cur ++ [ch]) acc xs h
            exact ⟨ch, p, ys, h1, by simpa using hxs, by simp [hrest]⟩
          · rw [runP, if_neg h1] at h
            exact absurd h (by simp)
      | afterStr =>
          by_cases h1 : ch = ','
          · subst h1
            rw [runP, if_pos rfl] at h
            obtain ⟨y, ys, hxs, hrest⟩ := ih .expectStr [] acc xs h
            exact ⟨y :: ys, hxs, by simp [afterRem, hrest]⟩
          · by_cases h2 : ch = ']'
            · subst h2
              rw [runP, if_neg h1, if_pos rfl] at h
              by_cases h3 : rest = []
              · rw [if_pos h3] at h
                subst h3
                exact ⟨[], by simpa using h.symm, by simp [afterRem]⟩
              · rw [if_neg h3] at h
                exact absurd h (by simp)
            · rw [runP, if_neg h1, if_neg h2] at h
              exact absurd h (by simp)

theorem jparse_sound (l : List Char) (xs : List String)
    (h : jparse l = some xs) : l = (serialize_json_array xs).data := by
  match l with
  | [] => simp [jparse] at h
  | c :: rest =>
      rw [jparse] at h
      by_cases hc : c = '['
      · subst hc
        rw [if_pos rfl] at h
        obtain ⟨ys, hxs, hrest⟩ := runP_sound rest .expectFirst [] [] xs h
        simp only [List.nil_append] at hxs
        subst hxs
        show '[' :: rest = '[' :: firstRem xs
        rw [hrest]
      · rw [if_neg hc] at h
        exact absurd h (by simp)

/-! ## Decimal round-trip lemmas -/

theorem digitChar_toNat (d : Nat) (h : d < 10) : (digitChar d).toNat = 48 + d := by
  interval_cases d <;> rfl

theorem digitChar_isDigit (d : Nat) (h : d < 10) : (digitChar d).isDigit = true := by
  interval_cases d <;> decide

theorem dvAux_digits : ∀ (fuel n : Nat) (acc : List Char) (a : Nat), n < fuel →
    dvAux a (natToDigitsAux fuel n acc) = dvAux (a * magAux fuel n + n) acc := by
  intro fuel
  induction fuel with
  | zero => intro n acc a h; exact absurd h (by omega)
  | succ fuel ih =>
      intro n acc a h
      have e1 : natToDigitsAux (fuel + 1) n acc =
          if n < 10 then digitChar n :: acc
          else natToDigitsAux fuel (n / 10) (digitChar (n % 10) :: acc) := rfl
      have e2 : magAux (fuel + 1) n =
          if n < 10 then 10 else 10 * magAux fuel (n / 10) := rfl
      have e3 : ∀ (x : Nat) (c : Char) (rest : List Char),
          dvAux x (c :: rest) = dvAux (x * 10 + (c.toNat - 48)) rest :=
        fun _ _ _ => rfl
      by_cases h10 : n < 10
      · rw [e1, e2, if_pos h10, if_pos h10, e3, digitChar_toNat n h10]
        congr 1
        omega
      · rw [e1, e2, if_neg h10, if_neg h10,
          ih (n / 10) (digitChar (n % 10) :: acc) a (by omega), e3,
          digitChar_toNat (n % 10) (by omega)]
        have h48 : (a * magAux fuel (n / 10) + n / 10) * 10 + (48 + n % 10 - 48) =
            a * (10 * magAux fuel (n / 10)) + (n / 10 * 10 + n % 10) := by
          have hx : 48 + n % 10 - 48 = n % 10 := by omega
          rw [hx]
          ring
        have hsum : n / 10 * 10 + n % 10 = n := by omega
        rw [h48, hsum]

theorem natToDigitsAux_all_digits : ∀ (fuel n : Nat) (acc : List Char), n < fuel →
    acc.all Char.isDigit = true → (natToDigitsAux fuel n acc).all Char.isDigit = true := by
  intro fuel
  induction fuel with
  | zero => intro n acc h; exact absurd h (by omega)
  | succ fuel ih =>
      intro n acc h hacc
      have e1 : natToDigitsAux (fuel + 1) n acc =
          if n < 10 then digitChar n :: acc
          else natToDigitsAux fuel (n / 10) (digitChar (n % 10) :: acc) := rfl
      by_cases h10 : n < 10
      · rw [e1, if_pos h10]
        simp [digitChar_isDigit n h10, hacc]
      · rw [e1, if_neg h10]
        exact ih (n / 10) _ (by omega)
          (by simp [digitChar_isDigit (n % 10) (by omega), hacc])

theorem natToDigitsAux_ne_nil : ∀ (fuel n : Nat) (acc : List Char), n < fuel →
    natToDigitsAux fuel n acc ≠ [] := by
  intro fuel
  induction fuel with
  | zero => intro n acc h; exact absurd h (by omega)
  | succ fuel ih =>
      intro n acc h
      have e1 : natToDigitsAux (fuel + 1) n acc =
          if n < 10 then digitChar n :: acc
          else natToDigitsAux fuel (n / 10) (digitChar (n % 10) :: acc) := rfl
      by_cases h10 : n < 10
      · rw [e1, if_pos h10]
        simp
      · rw [e1, if_neg h10]
        exact ih (n / 10) _ (by omega)

theorem parseNatDigits_natToDigits (n : Nat) :
    parseNatDigits (natToDigits n) = some n := by
  have hne := natToDigitsAux_ne_nil (n + 1) n [] (by omega)
  have hall := natToDigitsAux_all_digits (n + 1) n [] (by omega) rfl
  have h := dvAux_digits (n + 1) n [] 0 (by omega)
  rw [Nat.zero_mul, Nat.zero_add] at h
  rw [parseNatDigits, if_pos ⟨hne, hall⟩]
  exact congrArg some h

theorem isDigit_not_sign (c : Char) (h : c.isDigit = true) : c ≠ '-' ∧ c ≠ '+' := by
  constructor <;> (rintro rfl; exact absurd h (by decide))

theorem parseSigned_digits (lo hi : Int) (l : List Char) (hne : l ≠ [])
    (hall : l.all Char.isDigit = true) :
    parseSignedRanged lo hi (⟨l⟩ : String) =
      (parseNatDigits l).bind fun n => inRange lo hi (n : Int) := by
  match l with
  | [] => exact absurd rfl hne
  | c :: rest =>
      have hcd : c.isDigit = true := by
        simp only [List.all_cons, Bool.and_eq_true] at hall
        exact hall.1
      obtain ⟨hc1, hc2⟩ := isDigit_not_sign c hcd
      have hred : parseSignedRanged lo hi (⟨c :: rest⟩ : String) =
          (if c = '-' then (parseNatDigits rest).bind fun n => inRange lo hi (-(n : Int))
           else if c = '+' then (parseNatDigits rest).bind fun n => inRange lo hi (n : Int)
           else (parseNatDigits (c :: rest)).bind fun n => inRange lo hi (n : Int)) := rfl
      rw [hred, if_neg hc1, if_neg hc2]

theorem parseSignedRanged_intRepr (lo hi i : Int) (h1 : lo ≤ i) (h2 : i ≤ hi) :
    parseSignedRanged lo hi (intRepr i) = some i := by
  by_cases hneg : i < 0
  · rw [intRepr, if_pos hneg]
    have hred : parseSignedRanged lo hi (⟨'-' :: natToDigits i.natAbs⟩ : String) =
        (parseNatDigits (natToDigits i.natAbs)).bind
          fun n => inRange lo hi (-(n : Int)) := rfl
    rw [hred, parseNatDigits_natToDigits]
    simp only [Option.bind]
    have habs : -((i.natAbs : Nat) : Int) = i := by omega
    rw [habs, inRange, if_pos ⟨h1, h2⟩]
  · rw [intRepr, if_neg hneg]
    rw [parseSigned_digits lo hi (natToDigits i.toNat)
      (natToDigitsAux_ne_nil (i.toNat + 1) i.toNat [] (by omega))
      (natToDigitsAux_all_digits (i.toNat + 1) i.toNat [] (by omega) rfl)]
    rw [parseNatDigits_natToDigits]
    simp only [Option.bind]
    have htn : ((i.toNat : Nat) : Int) = i := by omega
    rw [htn, inRange, if_pos ⟨h1, h2⟩]

/-! ## Claim C3: `Value::new` under ResourceArray (amended side) -/

/-- C3 (amended): `values.rs::Value::new` under the ResourceArray datatype
succeeds, in order, on exactly the valid array-of-strings literals and
returns a ParseError on every other raw string; `Store::get_native_value`,
by contrast, panics on invalid input (see its counterexample). -/
theorem value_new_resource_array_spec (raw : String) :
    (∀ xs, raw = serialize_json_array xs →
      Values.Value.new raw .ResourceArray = .ok (.ResourceArray xs)) ∧
    ((¬ ∃ xs, raw = serialize_json_array xs) →
      Values.Value.new raw .ResourceArray =
        .err ("Could not deserialize ResourceArray: " ++ raw ++ ".")) := by
  constructor
  · rintro xs rfl
    simp [Values.Value.new, jparse_serialize]
  · intro hnone
    have hj : jparse raw.data = none := by
      cases hcase : jparse raw.data with
      | none => rfl
      | some ys =>
          exact absurd ⟨ys, strExt (jparse_sound raw.data ys hcase)⟩ hnone
    simp [Values.Value.new, hj]

/-- Witness for `value_new_resource_array_spec`: a valid literal decodes in
order, the invalid raw string `"("` yields a ParseError. -/
theorem value_new_resource_array_spec_witness :
    Values.Value.new "[\"a\",\"b\"]" .ResourceArray =
      .ok (.ResourceArray ["a", "b"]) ∧
    Values.Value.new "(" .ResourceArray =
      .err ("Could not deserialize ResourceArray: " ++ "(" ++ ".") := by
  constructor
  · exact (value_new_resource_array_spec "[\"a\",\"b\"]").1 ["a", "b"] rfl
  · refine (value_new_resource_array_spec "(").2 ?_
    rintro ⟨xs, h⟩
    have h2 : ('(' :: ([] : List Char)) = '[' :: firstRem xs := congrArg String.data h
    injection h2 with h3 _
    exact absurd h3 (by decide)

/-! ## Claim C6: the decode/encode round trip -/

/-- C6 (counterexample): the Value `Date "x"` (whose payload does not pass
the date validation) does not round-trip: decoding its encoding under its
own datatype yields a ValidationError, not the value back. -/
theorem roundtrip_fails_invalid_date :
    Values.Value.new (Values.Value.to_string (.Date "x"))
        (Values.datatype_of (.Date "x")) = .err "Not a valid date: x" ∧
    Values.Value.new (Values.Value.to_string (.Date "x"))
        (Values.datatype_of (.Date "x")) ≠ .ok (.Date "x") := by
  constructor
  · rfl
  · decide

/-- C6 (amended): for every well-formed Value — payloads in `i32`/`i64`
range for Integer/Timestamp, slug/date payloads matching their regexes,
everything else unrestricted — decoding the encoding under the value's own
datatype reproduces it exactly; in particular for Unsupported values the
raw string and foreign datatype id always round-trip. -/
theorem value_roundtrip_valid (v : Values.Value) (h : Values.ValidValue v) :
    Values.Value.new (Values.Value.to_string v) (Values.datatype_of v) = .ok v := by
  cases v with
  | AtomicUrl s => rfl
  | Date s =>
      simp only [Values.ValidValue] at h
      simp [Values.Value.new, Values.Value.to_string, Values.datatype_of, h]
  | Integer i =>
      obtain ⟨h1, h2⟩ := h
      simp [Values.Value.new, Values.Value.to_string, Values.datatype_of,
        parseI32, parseSignedRanged_intRepr _ _ i h1 h2]
  | Markdown s => rfl
  | ResourceArray xs =>
      simp [Values.Value.new, Values.Value.to_string, Values.datatype_of,
        jparse_serialize]
  | Slug s =>
      simp only [Values.ValidValue] at h
      simp [Values.Value.new, Values.Value.to_string, Values.datatype_of, h]
  | String s => rfl
  | Timestamp i =>
      obtain ⟨h1, h2⟩ := h
      simp [Values.Value.new, Values.Value.to_string, Values.datatype_of,
        parseI64, parseSignedRanged_intRepr _ _ i h1 h2]
  | Unsupported u => rfl

/-- Witness for `value_roundtrip_valid` at the value `Integer 42`. -/
theorem value_roundtrip_valid_witness :
    Values.Value.new (Values.Value.to_string (.Integer 42))
      (Values.datatype_of (.Integer 42)) = .ok (.Integer 42) :=
  value_roundtrip_valid (.Integer 42) ⟨by decide, by decide⟩

/-! ## Claim C1: `Store::add_atoms` -/

/-- C1 (code evaluated at the failing input): adding the atom
`("s", "q", "w")` to a store whose subject `s` exists but lacks property
`q` *does* store the value, yet `add_atoms` returns
`Err("Failed to add atom")` instead of `Ok` — `HashMap::insert` returns
`None` for a fresh key and the code treats that as failure. -/
theorem add_atoms_err_despite_insert :
    Lib.add_atoms [("s", [("p", "v")])] [⟨"s", "q", "w", .String "w"⟩] =
      ([("s", [("p", "v"), ("q", "w")])], .err "Failed to add atom") := by
  rfl

/-! ## Claim C9: `Store::add_resource` -/

/-- C9: after `add_resource(subject, resource)` the store's `get(subject)`
is exactly the given resource, and the call returns `Ok` if and only if a
resource for that subject already existed before the call (for a fresh
subject it returns an error even though the insertion took effect). -/
theorem add_resource_inverted_ok (store : Lib.Store) (subject : String)
    (resource : Lib.Resource) :
    Lib.get (Lib.add_resource store subject resource).1 subject = some resource ∧
    ((Lib.add_resource store subject resource).2 = .ok () ↔
      (Lib.get store subject).isSome = true) := by
  unfold Lib.add_resource Lib.get
  cases h : alget store subject <;>
    simp [h, alget_alinsert_self]

/-! ## Claim C2: out-of-bounds indexing in `Store::get_path` -/

/-- C2 (counterexample): resolving the path `"A P 5"` against a store where
`A`'s property `P` holds the one-element resource array `["B"]` panics
(models `&vector[5]`) — path resolution does *not* merely log and
continue. -/
theorem get_path_oob_counterexample :
    Lib.get_path pathStore (fun s => some s) (fun _ => true) "A P 5" =
      .crash "index out of bounds" := by
  rfl

/-- C2 (amended): whenever a non-negative integer token is applied while
`current` is an Atom, the backing resource holds the atom's property, and
the raw value parses as a resource array whose length is at most the
index, the path step aborts with a panic (the code prints a warning and
then executes the out-of-bounds `vector[i]`). -/
theorem pathStep_oob_panics (store : Lib.Store) (isUrl : String → Bool)
    (sub item astr : String) (r : Lib.Resource) (a : Lib.Atom) (i : Nat)
    (vec : List String) (hi : parseU32 item = some i)
    (hget : alget r a.property = some astr)
    (hj : jparse astr.data = some vec) (hlen : vec.length ≤ i) :
    Lib.pathStep store isUrl ⟨sub, some r, .Atom a⟩ item =
      .crash "index out of bounds" := by
  unfold Lib.pathStep
  rw [hi]
  simp only [hget, hj]
  rw [dif_neg (by omega)]

/-- Witness for `pathStep_oob_panics` at a concrete store and index. -/
theorem pathStep_oob_panics_witness :
    Lib.pathStep [] (fun _ => true)
      ⟨"A", some [("P", "[\"B\"]")], .Atom ⟨"A", "P", "[\"B\"]", .ResourceArray ["B"]⟩⟩
      "5" = .crash "index out of bounds" :=
  pathStep_oob_panics [] (fun _ => true) "A" "5" "[\"B\"]"
    [("P", "[\"B\"]")] ⟨"A", "P", "[\"B\"]", .ResourceArray ["B"]⟩ 5 ["B"]
    rfl rfl rfl (by decide)

/-! ## Claim C4: non-`#`, non-`[` lines in `Store::parse_ad3` -/

/-- C4 (counterexample): the line `" x"` is non-empty and starts with
neither `#` nor `[`, yet `parse_ad3` returns `Ok` and adds nothing — lines
whose first character is a space are silently ignored. -/
theorem parse_ad3_space_line_ignored :
    Lib.parse_ad3 [] " x" = ([], .ok ()) := by
  rfl

/-- C4 (amended): when the line loop reaches a line whose first character
is none of `#`, `[` and the space character, it returns a `FormatError`
naming the offending character and the line, and processes nothing
further. -/
theorem parse_ad3_bad_leading_char (store : Lib.Store) (line : String)
    (rest : List String) (c : Char) (tail : List Char)
    (hdata : line.data = c :: tail) (h1 : c ≠ '#') (h2 : c ≠ '[')
    (h3 : c ≠ ' ') :
    Lib.parse_ad3_go store (line :: rest) =
      (store, .err ("Parsing error at " ++ rdbg line ++ ", cannot start with " ++
        (⟨[c]⟩ : String))) := by
  unfold Lib.parse_ad3_go
  rw [hdata]
  simp [h1, h2, h3]

/-- Witness for `parse_ad3_bad_leading_char` on the line `"x"`. -/
theorem parse_ad3_bad_leading_char_witness :
    Lib.parse_ad3_go [] ["x"] =
      ([], .err ("Parsing error at " ++ rdbg "x" ++ ", cannot start with " ++
        (⟨['x']⟩ : String))) :=
  parse_ad3_bad_leading_char [] "x" [] 'x' [] rfl (by decide) (by decide)
    (by decide)

/-! ## Claim C5: `[`-lines of the wrong shape in `Store::parse_ad3` -/

/-- C5 (counterexample): the line `"[x"` begins with `[` and does not parse
as a 3-element string array, but instead of a `FormatError` the parser
*panics* (`from_str(line).expect(..)`). -/
theorem parse_ad3_invalid_array_crashes :
    Lib.parse_ad3 [] "[x" = ([], .crash ("Parsing error in " ++ rdbg "[x")) := by
  rfl

/-- C5 (amended): a line that parses as a JSON string array of length ≠ 3
makes `parse_ad3` return a `FormatError` naming the line (the message
claims a wrong length but does not state the actual one), and no atom is
added from that line. -/
theorem parse_ad3_wrong_length_error (store : Lib.Store) (line : String)
    (rest : List String) (tail : List Char) (vec : List String)
    (hdata : line.data = '[' :: tail) (hj : jparse line.data = some vec)
    (hlen : vec.length ≠ 3) :
    Lib.parse_ad3_go store (line :: rest) =
      (store, .err ("Wrong length of array at line " ++ rdbg line ++
        ": wrong length of array, should be 3")) := by
  unfold Lib.parse_ad3_go
  rw [hdata] at hj ⊢
  dsimp only
  rw [if_neg (by decide : ¬('[' : Char) = '#'),
    if_neg (by decide : ¬('[' : Char) = ' '),
    if_pos rfl, hj]
  rcases vec with _ | ⟨a, _ | ⟨b, _ | ⟨c, _ | ⟨d, t⟩⟩⟩⟩
  · rfl
  · rfl
  · rfl
  · exact absurd rfl hlen
  · rfl

/-- Witness for `parse_ad3_wrong_length_error` on the line `["a","b"]`. -/
theorem parse_ad3_wrong_length_error_witness :
    Lib.parse_ad3_go [] ["[\"a\",\"b\"]"] =
      ([], .err ("Wrong length of array at line " ++ rdbg "[\"a\",\"b\"]" ++
        ": wrong length of array, should be 3")) :=
  parse_ad3_wrong_length_error [] "[\"a\",\"b\"]" []
    "\"a\",\"b\"]".data ["a", "b"] rfl rfl (by decide)

/-! ## Claim C3: decoding under the ResourceArray datatype -/

/-- C3 (counterexample): `Store::get_native_value` on the malformed raw
string `"("` under the ResourceArray datatype *panics*
(`deserialize_json_array(value).unwrap()`) instead of returning a
ParseError. -/
theorem get_native_value_resource_array_crashes :
    Lib.get_native_value "(" .ResourceArray =
      .crash "called Option.unwrap on a None value" := by
  rfl

/-! ## Claim C10: the search indexer's implicit filters -/

theorem addResourceGo_step (subject p : String) (v : Values.Value)
    (rest : List (String × Values.Value)) :
    Search.addResourceGo subject ((p, v) :: rest) =
      if Search.isSkipped v then Search.addResourceGo subject rest
      else Search.add_triple subject p v.to_string :: Search.addResourceGo subject rest := by
  cases v <;> rfl

theorem addResourceGo_length (subject : String) :
    ∀ l : List (String × Values.Value),
      (Search.addResourceGo subject l).length =
        (l.filter fun pv => !Search.isSkipped pv.2).length := by
  intro l
  induction l with
  | nil => rfl
  | cons hd rest ih =>
      obtain ⟨p, v⟩ := hd
      rw [addResourceGo_step]
      by_cases h : Search.isSkipped v
      · simp [h, ih, List.filter_cons]
      · simp only [Bool.not_eq_true] at h
        simp [h, ih, List.filter_cons]

theorem addResourceGo_mem_of (subject : String) :
    ∀ (l : List (String × Values.Value)) (p : String) (v : Values.Value),
      (p, v) ∈ l → Search.isSkipped v = false →
      Search.add_triple subject p v.to_string ∈ Search.addResourceGo subject l := by
  intro l
  induction l with
  | nil => intro p v hm; simp at hm
  | cons hd rest ih =>
      intro p v hm hskip
      obtain ⟨q, w⟩ := hd
      rw [addResourceGo_step]
      rcases List.mem_cons.mp hm with heq | hm'
      · rw [Prod.mk.injEq] at heq
        obtain ⟨rfl, rfl⟩ := heq
        rw [hskip]
        simp
      · by_cases h : Search.isSkipped w
        · rw [if_pos h]
          exact ih p v hm' hskip
        · rw [if_neg h]
          exact List.mem_cons_of_mem _ (ih p v hm' hskip)

theorem addResourceGo_mem_inv (subject : String) :
    ∀ (l : List (String × Values.Value)) (d : Search.Doc),
      d ∈ Search.addResourceGo subject l →
      ∃ p v, (p, v) ∈ l ∧ Search.isSkipped v = false ∧
        d = Search.add_triple subject p v.to_string := by
  intro l
  induction l with
  | nil => intro d hd; simp [Search.addResourceGo] at hd
  | cons hd rest ih =>
      intro d hmem
      obtain ⟨q, w⟩ := hd
      rw [addResourceGo_step] at hmem
      by_cases h : Search.isSkipped w
      · rw [if_pos h] at hmem
        obtain ⟨p, v, h1, h2, h3⟩ := ih d hmem
        exact ⟨p, v, List.mem_cons_of_mem _ h1, h2, h3⟩
      · rw [if_neg h] at hmem
        rcases List.mem_cons.mp hmem with heq | hmem'
        · exact ⟨q, w, List.mem_cons_self .., Bool.eq_false_iff.mpr h, heq⟩
        · obtain ⟨p, v, h1, h2, h3⟩ := ih d hmem'
          exact ⟨p, v, List.mem_cons_of_mem _ h1, h2, h3⟩

theorem add_all_resources_filter :
    ∀ rs : List Search.Resource,
      Search.add_all_resources rs =
        Search.add_all_resources
          (rs.filter fun x => !Search.containsCommits x.subject) := by
  intro rs
  induction rs with
  | nil => rfl
  | cons r rest ih =>
      by_cases h : Search.containsCommits r.subject
      · rw [Search.add_all_resources, if_pos h, ih, List.filter_cons,
          if_neg (by simp [h])]
      · rw [Search.add_all_resources, if_neg h, ih, List.filter_cons,
          if_pos (by simp [Bool.not_eq_true] at h ⊢; exact h)]
        rw [Search.add_all_resources, if_neg h]

/-- C10: the search indexer filters implicitly — `add_resource` produces
exactly one document per (property, value) pair except pairs whose value is
an `AtomicUrl` or `ResourceArray`, which are never indexed; and
`add_all_resources` skips entirely every resource whose subject contains
the substring `"/commits/"` (dropping those resources leaves its output
unchanged). -/
theorem search_indexing_spec (rs : List Search.Resource) (r : Search.Resource) :
    (Search.add_resource r).length =
      (r.propvals.filter fun pv => !Search.isSkipped pv.2).length ∧
    (∀ p v, (p, v) ∈ r.propvals → Search.isSkipped v = false →
      Search.add_triple r.subject p (Values.Value.to_string v) ∈
        Search.add_resource r) ∧
    (∀ d, d ∈ Search.add_resource r → ∃ p v, (p, v) ∈ r.propvals ∧
      Search.isSkipped v = false ∧
      d = Search.add_triple r.subject p (Values.Value.to_string v)) ∧
    Search.add_all_resources rs =
      Search.add_all_resources
        (rs.filter fun x => !Search.containsCommits x.subject) :=
  ⟨addResourceGo_length r.subject r.propvals,
   fun p v hm hs => addResourceGo_mem_of r.subject r.propvals p v hm hs,
   fun d hd => addResourceGo_mem_inv r.subject r.propvals d hd,
   add_all_resources_filter rs⟩

/-- Witness for `search_indexing_spec` at a concrete one-property
resource. -/
theorem search_indexing_spec_witness :
    Search.add_triple "s" "p" (Values.Value.to_string (.String "x")) ∈
      Search.add_resource ⟨"s", [("p", .String "x")]⟩ :=
  (search_indexing_spec [] ⟨"s", [("p", .String "x")]⟩).2.1 "p" (.String "x")
    (by simp) rfl

/-! ## Claim C8: `Store::resource_to_json` on an Integer property -/

theorem rtjGo_preserve (store : Lib.Store) :
    ∀ (res : List (String × String)) (root ctx root' ctx' : List (String × Json))
      (k : String),
      Lib.rtjGo store res root ctx = .ok (root', ctx') →
      (∀ q w, (q, w) ∈ res → ∀ pq, Lib.get_property store q = .ok pq →
        pq.shortname ≠ k) →
      alget root' k = alget root k ∧ alget ctx' k = alget ctx k := by
  intro res
  induction res with
  | nil =>
      intro root ctx root' ctx' k h _
      rw [Lib.rtjGo] at h
      injection h with h
      injection h with h1 h2
      rw [← h1, ← h2]
      exact ⟨rfl, rfl⟩
  | cons hd rest ih =>
      obtain ⟨q, w⟩ := hd
      intro root ctx root' ctx' k h hsn
      rw [Lib.rtjGo] at h
      cases hq : Lib.get_property store q with
      | ok pq =>
          simp only [hq] at h
          cases hv : Lib.get_native_value w pq.data_type with
          | ok nv =>
              simp only [hv] at h
              have hne : pq.shortname ≠ k :=
                hsn q w (List.mem_cons_self ..) pq hq
              obtain ⟨hr, hc⟩ := ih _ _ root' ctx' k h
                (fun q' w' hm pq' hok => hsn q' w' (List.mem_cons_of_mem _ hm) pq' hok)
              rw [hr, hc, alget_alinsert_ne _ _ _ _ hne, alget_alinsert_ne _ _ _ _ hne]
              exact ⟨rfl, rfl⟩
          | err e => simp only [hv] at h; exact absurd h (by simp)
          | crash e => simp only [hv] at h; exact absurd h (by simp)
      | err e => simp only [hq] at h; exact absurd h (by simp)
      | crash e => simp only [hq] at h; exact absurd h (by simp)

theorem rtjGo_integer (store : Lib.Store) :
    ∀ (res : List (String × String)) (root ctx root' ctx' : List (String × Json))
      (prop raw : String) (p : Lib.Property) (n : Int),
      Lib.rtjGo store res root ctx = .ok (root', ctx') →
      (res.map Prod.fst).Nodup →
      (prop, raw) ∈ res →
      Lib.get_property store prop = .ok p →
      p.data_type = .Integer →
      parseI32 raw = some n →
      (∀ q w, (q, w) ∈ res → q ≠ prop → ∀ pq,
        Lib.get_property store q = .ok pq → pq.shortname ≠ p.shortname) →
      alget root' p.shortname = some (.num n) ∧
      alget ctx' p.shortname = some (Lib.ctxValue prop .Integer) := by
  intro res
  induction res with
  | nil => intro root ctx root' ctx' prop raw p n _ _ hmem; simp at hmem
  | cons hd rest ih =>
      obtain ⟨q, w⟩ := hd
      intro root ctx root' ctx' prop raw p n h hnodup hmem hp hdt hn hsn
      rw [Lib.rtjGo] at h
      rcases List.mem_cons.mp hmem with heq | hmem'
      · rw [Prod.mk.injEq] at heq
        obtain ⟨rfl, rfl⟩ := heq
        simp only [hp] at h
        have hval : Lib.get_native_value raw p.data_type = .ok (.Integer n) := by
          rw [hdt, Lib.get_native_value, hn]
        simp only [hval] at h
        have hout : ∀ q' w', (q', w') ∈ rest → ∀ pq',
            Lib.get_property store q' = .ok pq' → pq'.shortname ≠ p.shortname := by
          intro q' w' hm pq' hok
          have hqne : q' ≠ prop := by
            intro hcontra
            subst hcontra
            simp only [List.map_cons, List.nodup_cons] at hnodup
            exact hnodup.1 (List.mem_map_of_mem _ hm)
          exact hsn q' w' (List.mem_cons_of_mem _ hm) hqne pq' hok
        obtain ⟨hr, hc⟩ := rtjGo_preserve store rest _ _ root' ctx' p.shortname h hout
        rw [hr, hc, alget_alinsert_self, alget_alinsert_self, hdt]
        exact ⟨by rw [Lib.valueToJson], rfl⟩
      · cases hq : Lib.get_property store q with
        | ok pq =>
            simp only [hq] at h
            cases hv : Lib.get_native_value w pq.data_type with
            | ok nv =>
                simp only [hv] at h
                simp only [List.map_cons, List.nodup_cons] at hnodup
                exact ih _ _ root' ctx' prop raw p n h hnodup.2 hmem' hp hdt hn
                  (fun q' w' hm hne pq' hok =>
                    hsn q' w' (List.mem_cons_of_mem _ hm) hne pq' hok)
            | err e => simp only [hv] at h; exact absurd h (by simp)
            | crash e => simp only [hv] at h; exact absurd h (by simp)
        | err e => simp only [hq] at h; exact absurd h (by simp)
        | crash e => simp only [hq] at h; exact absurd h (by simp)

/-- C8: for a stored resource containing a property whose resolved datatype
is Integer and whose raw value parses as a 32-bit integer, a successful
`resource_to_json` yields a document mapping that property's shortname to a
JSON number, an `@context` entry for the shortname whose `@type` is the
XML-Schema integer URL, and `@id` equal to the subject.  (The resource's
keys are distinct as in a `HashMap`; the other properties' shortnames do
not collide with this one, nor does it collide with the reserved `@id` /
`@context` keys.) -/
theorem resource_to_json_integer_prop (store : Lib.Store) (resource_url : String)
    (res : Lib.Resource) (prop raw : String) (p : Lib.Property) (n : Int)
    (doc : Json)
    (hres : Lib.get store resource_url = some res)
    (hkeys : (res.map Prod.fst).Nodup)
    (hmem : (prop, raw) ∈ res)
    (hp : Lib.get_property store prop = .ok p)
    (hdt : p.data_type = .Integer)
    (hn : parseI32 raw = some n)
    (hsn : ∀ q w, (q, w) ∈ res → q ≠ prop → ∀ pq,
      Lib.get_property store q = .ok pq → pq.shortname ≠ p.shortname)
    (hid : p.shortname ≠ "@context" ∧ p.shortname ≠ "@id")
    (hok : Lib.resource_to_json store resource_url = .ok doc) :
    ∃ m, doc = .obj m ∧
      alget m p.shortname = some (.num n) ∧
      alget m "@id" = some (.str resource_url) ∧
      ∃ ctx, alget m "@context" = some (.obj ctx) ∧
        alget ctx p.shortname = some (.obj [("@id", .str prop),
          ("@type", .str "http://www.w3.org/2001/XMLSchema#integer")]) := by
  rw [Lib.resource_to_json] at hok
  simp only [hres] at hok
  cases hgo : Lib.rtjGo store res [] [] with
  | ok pair =>
      obtain ⟨root, ctx⟩ := pair
      simp only [hgo] at hok
      injection hok with hdoc
      obtain ⟨hroot, hctx⟩ := rtjGo_integer store res [] [] root ctx prop raw p n
        hgo hkeys hmem hp hdt hn hsn
      refine ⟨_, hdoc.symm, ?_, ?_, ctx, ?_, ?_⟩
      · rw [alget_alinsert_ne _ _ _ _ (Ne.symm hid.2),
          alget_alinsert_ne _ _ _ _ (Ne.symm hid.1), hroot]
      · rw [alget_alinsert_self]
      · rw [alget_alinsert_ne _ _ _ _ (by decide : "@id" ≠ "@context"),
          alget_alinsert_self]
      · rw [hctx]
        rfl
  | err e => simp only [hgo] at hok; exact absurd hok (by simp)
  | crash e => simp only [hgo] at hok; exact absurd hok (by simp)

/-- Witness for `resource_to_json_integer_prop` on the fixture store. -/
theorem resource_to_json_integer_prop_witness :
    ∃ doc, Lib.resource_to_json c8Store "s" = .ok doc ∧
      ∃ m, doc = .obj m ∧
        alget m "count" = some (.num 42) ∧
        alget m "@id" = some (.str "s") ∧
        ∃ ctx, alget m "@context" = some (.obj ctx) ∧
          alget ctx "count" = some (.obj [("@id", .str "P"),
            ("@type", .str "http://www.w3.org/2001/XMLSchema#integer")]) := by
  refine ⟨_, rfl, ?_⟩
  exact resource_to_json_integer_prop c8Store "s" [("P", "42")] "P" "42"
    ⟨none, .Integer, "count", "P", "d"⟩ 42 _ rfl (by simp) (by simp) rfl rfl rfl
    (by
      intro q w hqw hne pq hok
      simp only [List.mem_singleton, Prod.mk.injEq] at hqw
      exact absurd hqw.1 hne)
    ⟨by decide, by decide⟩ rfl

/-! ## Claim C7: `Store::validate_store` on a missing required property -/

theorem decodeProps_ok (store : Lib.Store) :
    ∀ res : Lib.Resource, Lib.decodesOk store res = true →
      Lib.decodeProps store res = .ok (res.map Prod.fst) := by
  intro res
  induction res with
  | nil => intro _; rfl
  | cons hd rest ih =>
      obtain ⟨p, v⟩ := hd
      intro hall
      rw [Lib.decodesOk, List.all_cons, Bool.and_eq_true] at hall
      obtain ⟨hhead, hrest⟩ := hall
      rw [Lib.decodeProps]
      cases hq : Lib.get_property store p with
      | ok property =>
          simp only [hq] at hhead ⊢
          cases hv : Lib.get_native_value v property.data_type with
          | ok val =>
              simp only [hv]
              rw [ih hrest]
              simp [RResult.map]
          | err e => simp only [hv] at hhead; exact absurd hhead (by simp)
          | crash e => simp only [hv] at hhead; exact absurd hhead (by simp)
      | err e => simp only [hq] at hhead; exact absurd hhead (by simp)
      | crash e => simp only [hq] at hhead; exact absurd hhead (by simp)

theorem checkRequires_cases (subject : String) (found : List String)
    (classSubject : String) : ∀ reqs : List Lib.Property,
    ((∀ P ∈ reqs, P.subject ∈ found) ∧
      Lib.checkRequires subject found classSubject reqs = .ok ()) ∨
    (∃ P ∈ reqs, P.subject ∉ found ∧
      Lib.checkRequires subject found classSubject reqs =
        .err (Lib.missingMsg P.shortname subject classSubject)) := by
  intro reqs
  induction reqs with
  | nil => left; exact ⟨by simp, rfl⟩
  | cons P rest ih =>
      by_cases hP : P.subject ∈ found
      · rcases ih with ⟨hall, hok⟩ | ⟨P', hmem, hnot, herr⟩
        · left
          refine ⟨?_, by rw [Lib.checkRequires, if_pos hP]; exact hok⟩
          intro Q hQ
          rcases List.mem_cons.mp hQ with rfl | hQ'
          · exact hP
          · exact hall Q hQ'
        · right
          exact ⟨P', List.mem_cons_of_mem _ hmem, hnot,
            by rw [Lib.checkRequires, if_pos hP]; exact herr⟩
      · right
        exact ⟨P, List.mem_cons_self .., hP,
          by rw [Lib.checkRequires, if_neg hP]⟩

theorem checkClasses_cases (subject : String) (found : List String) :
    ∀ cs : List Lib.Class,
    ((∀ c ∈ cs, ∀ P ∈ c.requires, P.subject ∈ found) ∧
      Lib.checkClasses subject found cs = .ok ()) ∨
    (∃ c ∈ cs, ∃ P ∈ c.requires, P.subject ∉ found ∧
      Lib.checkClasses subject found cs =
        .err (Lib.missingMsg P.shortname subject c.subject)) := by
  intro cs
  induction cs with
  | nil => left; exact ⟨by simp, rfl⟩
  | cons c rest ih =>
      rcases checkRequires_cases subject found c.subject c.requires with
        ⟨hall, hok⟩ | ⟨P, hPmem, hPnot, herr⟩
      · rcases ih with ⟨hall2, hok2⟩ | ⟨c', hc', P', hP', hnot', herr'⟩
        · left
          constructor
          · intro c0 hc0
            rcases List.mem_cons.mp hc0 with rfl | hc0'
            · exact hall
            · exact hall2 c0 hc0'
          · rw [Lib.checkClasses]
            simp only [hok]
            exact hok2
        · right
          refine ⟨c', List.mem_cons_of_mem _ hc', P', hP', hnot', ?_⟩
          rw [Lib.checkClasses]
          simp only [hok]
          exact herr'
      · right
        refine ⟨c, List.mem_cons_self .., P, hPmem, hPnot, ?_⟩
        rw [Lib.checkClasses]
        simp only [herr]

theorem hasViolationB_iff (store : Lib.Store) (s : String) (res : Lib.Resource)
    (cs : List Lib.Class)
    (hcs : Lib.get_classes_for_subject store s = .ok cs) :
    (Lib.hasViolationB store s res = true ↔
      ∃ c ∈ cs, ∃ P ∈ c.requires, P.subject ∉ res.map Prod.fst) := by
  rw [Lib.hasViolationB]
  simp only [hcs]
  simp [List.any_eq_true]

theorem checkResource_cases (store : Lib.Store) (s : String) (res : Lib.Resource)
    (hdec : Lib.decodesOk store res = true) (hcls : Lib.classesOk store s = true) :
    ∃ cs, Lib.get_classes_for_subject store s = .ok cs ∧
      ((Lib.hasViolationB store s res = false ∧
          Lib.checkResource store s res = .ok ()) ∨
        (∃ c ∈ cs, ∃ P ∈ c.requires, P.subject ∉ res.map Prod.fst ∧
          Lib.checkResource store s res =
            .err (Lib.missingMsg P.shortname s c.subject))) := by
  obtain ⟨cs, hcs⟩ : ∃ cs, Lib.get_classes_for_subject store s = .ok cs := by
    rw [Lib.classesOk] at hcls
    cases hx : Lib.get_classes_for_subject store s with
    | ok cs => exact ⟨cs, rfl⟩
    | err e => simp only [hx] at hcls; exact absurd hcls (by simp)
    | crash e => simp only [hx] at hcls; exact absurd hcls (by simp)
  refine ⟨cs, hcs, ?_⟩
  have hcheck : Lib.checkResource store s res =
      Lib.checkClasses s (res.map Prod.fst) cs := by
    rw [Lib.checkResource]
    simp only [decodeProps_ok store res hdec, hcs]
  rcases checkClasses_cases s (res.map Prod.fst) cs with
    ⟨hall, hok⟩ | ⟨c, hc, P, hP, hnot, herr⟩
  · left
    constructor
    · rw [Bool.eq_false_iff]
      intro hv
      rw [hasViolationB_iff store s res cs hcs] at hv
      obtain ⟨c, hc, P, hP, hnot⟩ := hv
      exact hnot (hall c hc P hP)
    · rw [hcheck]
      exact hok
  · right
    exact ⟨c, hc, P, hP, hnot, by rw [hcheck]; exact herr⟩

theorem validateGo_cases (store : Lib.Store) :
    ∀ l : List (String × Lib.Resource),
      (∀ e ∈ l, Lib.decodesOk store e.2 = true) →
      (∀ e ∈ l, Lib.classesOk store e.1 = true) →
      ((∀ e ∈ l, Lib.hasViolationB store e.1 e.2 = false) ∧
        Lib.validateGo store l = .ok ()) ∨
      (∃ s res cs c P, (s, res) ∈ l ∧
        Lib.get_classes_for_subject store s = .ok cs ∧ c ∈ cs ∧
        P ∈ c.requires ∧ P.subject ∉ res.map Prod.fst ∧
        Lib.validateGo store l =
          .err (Lib.missingMsg P.shortname s c.subject)) := by
  intro l
  induction l with
  | nil => intro _ _; left; exact ⟨by simp, rfl⟩
  | cons hd rest ih =>
      obtain ⟨s, res⟩ := hd
      intro hdec hcls
      obtain ⟨cs, hcs, hcase⟩ := checkResource_cases store s res
        (hdec (s, res) (List.mem_cons_self ..)) (hcls (s, res) (List.mem_cons_self ..))
      rcases hcase with ⟨hnov, hok⟩ | ⟨c, hc, P, hP, hnot, herr⟩
      · rcases ih (fun e he => hdec e (List.mem_cons_of_mem _ he))
          (fun e he => hcls e (List.mem_cons_of_mem _ he)) with
          ⟨hall, hres⟩ | ⟨s', res', cs', c', P', hm', hcs', hc', hP', hnot', herr'⟩
        · left
          constructor
          · intro e he
            rcases List.mem_cons.mp he with rfl | he'
            · exact hnov
            · exact hall e he'
          · rw [Lib.validateGo]
            simp only [hok]
            exact hres
        · right
          refine ⟨s', res', cs', c', P', List.mem_cons_of_mem _ hm', hcs', hc',
            hP', hnot', ?_⟩
          rw [Lib.validateGo]
          simp only [hok]
          exact herr'
      · right
        refine ⟨s, res, cs, c, P, List.mem_cons_self .., hcs, hc, hP, hnot, ?_⟩
        rw [Lib.validateGo]
        simp only [herr]

/-- C7: in a store where all declared values decode under their properties'
datatypes and every subject's asserted classes resolve, if some subject
asserts a class with a required property missing from its resource's keys,
then `validate_store` returns an error naming a violating subject, the
missing property's shortname and the asserting class. -/
theorem validate_store_missing_required (store : Lib.Store)
    (hdec : ∀ e ∈ store, Lib.decodesOk store e.2 = true)
    (hcls : ∀ e ∈ store, Lib.classesOk store e.1 = true)
    (hviol : ∃ e ∈ store, Lib.hasViolationB store e.1 e.2 = true) :
    ∃ s res cs c P, (s, res) ∈ store ∧
      Lib.get_classes_for_subject store s = .ok cs ∧ c ∈ cs ∧
      P ∈ c.requires ∧ P.subject ∉ res.map Prod.fst ∧
      Lib.validate_store store =
        .err (Lib.missingMsg P.shortname s c.subject) := by
  rcases validateGo_cases store store hdec hcls with
    ⟨hall, _⟩ | ⟨s, res, cs, c, P, hm, hcs, hc, hP, hnot, herr⟩
  · obtain ⟨e, he, hv⟩ := hviol
    rw [hall e he] at hv
    exact absurd hv (by simp)
  · exact ⟨s, res, cs, c, P, hm, hcs, hc, hP, hnot, herr⟩

/-- Witness for `validate_store_missing_required` on the fixture store
(`X` asserts class `C`, which requires `P`; `X` lacks `P`). -/
theorem validate_store_missing_required_witness :
    ∃ s res cs c P, (s, res) ∈ c7Store ∧
      Lib.get_classes_for_subject c7Store s = .ok cs ∧ c ∈ cs ∧
      P ∈ c.requires ∧ P.subject ∉ res.map Prod.fst ∧
      Lib.validate_store c7Store =
        .err (Lib.missingMsg P.shortname s c.subject) :=
  validate_store_missing_required c7Store (by decide) (by decide) (by decide)

end AtomicServer
